import Mathlib
/-!
Verification development for the `striphtml` post-processor
(`pymdownx/striphtml.py`) and the `_get_version` helper
(`markdown/__meta__.py`).

The post-processor is a single regular-expression driven rewrite:
`RE_TAG_HTML.sub(repl, text)`.  The embedding below hand-compiles the fixed
pattern `RE_TAG_HTML` and the derived bad-attribute pattern `TAG_BAD_ATTR`
into deterministic total Lean functions on `List Char`.  The hand
compilation removes backtracking only where the pattern is locally
deterministic (each greedy/lazy repetition in these patterns either munches
a character class disjoint from its follower, or — for the lazy bodies —
stops at the first occurrence of its terminator, which the body cannot
step across).  Character classes are modelled at ASCII granularity
(`\s`, `\w` of the `re` module restricted to ASCII).
-/

namespace StripHtml

/-- `\s` of the `re` module (ASCII part). -/
def isWS (c : Char) : Bool :=
  c = ' ' || c = '\t' || c = '\n' || c = '\r' || c = '\x0b' || c = '\x0c'
/-- `\w` of the `re` module (ASCII part). -/
def isWord (c : Char) : Bool := c.isAlphanum || c = '_'
/-- the class `[\w\:\.\-]` used for element names. -/
def isNameChar (c : Char) : Bool := isWord c || c = ':' || c = '.' || c = '-'
/-- the class `[\w\-:]` used for attribute names. -/
def isAttrChar (c : Char) : Bool := isWord c || c = '-' || c = ':'
/-- the class for a bare (unquoted) attribute value: `[^\s"'\x60=<>]`. -/
def isBare (c : Char) : Bool :=
  !(isWS c) && c ≠ '"' && c ≠ '\x27' && c ≠ '\x60' && c ≠ '=' && c ≠ '<' && c ≠ '>'
/-- A matcher consumes a prefix of the input: it returns the consumed
prefix together with the rest, or `none`. -/
def M : Type := List Char → Option (List Char × List Char)
/-- A matcher is `Good` when the consumed prefix and the rest always
reassemble to the input. -/
def Good (m : M) : Prop :=
  ∀ s c r, m s = some (c, r) → c ++ r = s
/-- Match a literal character sequence. -/
def litM (l : List Char) : M :=
  fun s =>
    match l, s with
    | [], s => some ([], s)
    | _ :: _, [] => none
    | a :: l', c :: s' =>
      if a = c then
        (litM l' s').map (fun p => (c :: p.1, p.2))
      else none
/-- Greedily munch characters satisfying `p` (possibly none). -/
def starM (p : Char → Bool) : M :=
  fun s => some (s.takeWhile p, s.dropWhile p)
/-- Greedily munch characters satisfying `p`, at least one. -/
def plusM (p : Char → Bool) : M :=
  fun s =>
    match s.takeWhile p, s.dropWhile p with
    | [], _ => none
    | c :: t, r => some (c :: t, r)
/-- Sequential composition of matchers; consumed prefixes concatenate. -/
def seqM (m₁ m₂ : M) : M :=
  fun s =>
    match m₁ s with
    | none => none
    | some (c₁, r₁) =>
      match m₂ r₁ with
      | none => none
      | some (c₂, r₂) => some (c₁ ++ c₂, r₂)
/-- Ordered choice of matchers (first success wins, as in a regex
alternation whose branches are locally deterministic). -/
def altM (m₁ m₂ : M) : M :=
  fun s =>
    match m₁ s with
    | some p => some p
    | none => m₂ s
/-- Greedy option: take the match if there is one (`(?:...)?`). -/
def optM (m : M) : M :=
  fun s =>
    match m s with
    | some p => some p
    | none => some ([], s)
/-! ### The attribute grammar shared by all tag alternatives

Regex source: `(?:\s+[\w\-:]+(?:\s*=\s*(?:"[^"]*"|'[^']*'|[^\s"'\x60=<>]+))?)*`. -/

/-- `"[^"]*"` or `'[^']*'`: a quoted value. -/
def quotedM (q : Char) : M :=
  seqM (litM [q]) (seqM (starM (fun c => c ≠ q)) (litM [q]))
/-- `(?:"[^"]*"|'[^']*'|[^\s"'\x60=<>]+)`: an attribute value. -/
def valueM : M :=
  altM (quotedM '"') (altM (quotedM '\x27') (plusM isBare))
/-- `\s*=\s*` followed by a value (the mandatory form used in
`TAG_BAD_ATTR`; `RE_TAG_HTML` wraps it in `optM`). -/
def eqValueM : M :=
  seqM (starM isWS) (seqM (litM ['=']) (seqM (starM isWS) valueM))
/-- One attribute token: `\s+[\w\-:]+(?:\s*=\s*value)?`. -/
def attrTokenM : M :=
  seqM (plusM isWS) (seqM (plusM isAttrChar) (optM eqValueM))
/-- Zero or more attribute tokens (fuelled; each token consumes at least
one character, so fuel equal to the input length is always enough). -/
def attrStar : Nat → List Char → List Char × List Char
  | 0, s => ([], s)
  | f + 1, s =>
    match attrTokenM s with
    | some (c, r) =>
      let p := attrStar f r
      (c ++ p.1, p.2)
    | none => ([], s)
/-- The full attribute run of a tag (`attr` / `script_attr` group). -/
def attrsM (s : List Char) : List Char × List Char :=
  attrStar s.length s
/-! ### The four alternatives of `RE_TAG_HTML` -/

/-- `\s*(/)?>`: the end of an opening tag (`close` group). -/
def tagCloseM : M :=
  seqM (starM isWS) (altM (litM ['/', '>']) (litM ['>']))
/-- `</[\w\:\.\-]+\s*>`: a closing tag (`close_tag` alternative). -/
def closeTagM : M :=
  seqM (litM ['<', '/'])
    (seqM (plusM isNameChar) (seqM (starM isWS) (litM ['>'])))
/-- `</name\s*>` for the fixed raw-text element name `name`
(the back-reference `(?P=script_name)`). -/
def closeForM (nm : List Char) : M :=
  seqM (litM ('<' :: '/' :: nm)) (seqM (starM isWS) (litM ['>']))
/-- Lazy `.*?</name\s*>` (DOTALL): everything up to and including the
first matching closing tag. -/
def findClose (nm : List Char) : M
  | [] => none
  | c :: t =>
    match closeForM nm (c :: t) with
    | some p => some p
    | none => (findClose nm t).map (fun p => (c :: p.1, p.2))
/-- `\s*>.*?</name\s*>`: the `script_rest` group. -/
def scriptRestM (nm : List Char) : M :=
  seqM (starM isWS) (seqM (litM ['>']) (findClose nm))
/-- The element-name alternation `(style|script)` (case-sensitive,
`style` first). -/
def scriptNameM (s : List Char) : Option (List Char × List Char) :=
  match litM ['s', 't', 'y', 'l', 'e'] s with
  | some p => some p
  | none => litM ['s', 'c', 'r', 'i', 'p', 't'] s
/-- Recognise the comment terminator `-->` at the head. -/
def commEnd : List Char → Option (List Char)
  | '-' :: '-' :: '>' :: r => some r
  | _ => none
/-- Lazy comment body: everything up to and including the first `-->`.
(The lazy body `(?:-(?!->)|[^-])*?` of the first comment alternative can
never step across a `-` that starts `-->`, and `[\s\S]*?` of the second
stops there too, so both bodies end at the first `-->`.) -/
def commentBody : M
  | [] => none
  | c :: t =>
    match commEnd (c :: t) with
    | some r => some (['-', '-', '>'], r)
    | none => (commentBody t).map (fun p => (c :: p.1, p.2))
/-- The lookahead `(?=\r?\n)`. -/
def nlAhead : List Char → Bool
  | '\n' :: _ => true
  | '\r' :: '\n' :: _ => true
  | _ => false
/-- Greedy `\s*(?=\r?\n)` after `-->`: the largest `k` not exceeding the
whitespace-run length such that a newline follows `k` consumed
whitespace characters. -/
def trailK (t : List Char) : Nat → Option Nat
  | 0 => if nlAhead t then some 0 else none
  | k + 1 => if nlAhead (t.drop (k + 1)) then some (k + 1) else trailK t k
/-- The `comments` alternative:
`(?:\r?\n?\s*)<!--(?:-(?!->)|[^-])*?-->(?:\s*)(?=\r?\n)|<!--[\s\S]*?-->`.
The second alternative carries no whitespace prefix, so when the
trailing-newline search fails the match only exists if the prefix was
empty. -/
def commentM : M := fun s =>
  let ws := s.takeWhile isWS
  let r1 := s.dropWhile isWS
  match litM ['<', '!', '-', '-'] r1 with
  | none => none
  | some (c1, r2) =>
    match commentBody r2 with
    | none => none
    | some (body, r3) =>
      match trailK r3 (r3.takeWhile isWS).length with
      | some k => some (ws ++ c1 ++ body ++ r3.take k, r3.drop k)
      | none =>
        match ws with
        | [] => some (c1 ++ body, r3)
        | _ :: _ => none
/-- A recognised construct, carrying the capture groups `repl` uses. -/
inductive MatchData where
  | comments (text : List Char)
  | scripts (openT attr rest : List Char)
  | openTag (openT attr close : List Char)
  | closeTag (text : List Char)
  deriving DecidableEq, Repr
/-- Group 0 of a match: the whole matched span. -/
def MatchData.text : MatchData → List Char
  | comments t => t
  | scripts o a r => o ++ a ++ r
  | openTag o a cl => o ++ a ++ cl
  | closeTag t => t
/-- The `scripts` alternative of `RE_TAG_HTML`. -/
def scriptsM (s : List Char) : Option (MatchData × List Char) :=
  match s with
  | '<' :: t =>
    match scriptNameM t with
    | none => none
    | some (nm, r1) =>
      let p := attrsM r1
      match scriptRestM nm p.2 with
      | some (rest, r3) => some (.scripts ('<' :: nm) p.1 rest, r3)
      | none => none
  | _ => none
/-- The `open` alternative of `RE_TAG_HTML`. -/
def openM (s : List Char) : Option (MatchData × List Char) :=
  match s with
  | '<' :: t =>
    match plusM isNameChar t with
    | none => none
    | some (nm, r1) =>
      let p := attrsM r1
      match tagCloseM p.2 with
      | some (cl, r3) => some (.openTag ('<' :: nm) p.1 cl, r3)
      | none => none
  | _ => none
/-- One attempt of `RE_TAG_HTML` at the current position: the four
alternatives in pattern order. -/
def tryMatch (s : List Char) : Option (MatchData × List Char) :=
  match commentM s with
  | some (c, r) => some (.comments c, r)
  | none =>
    match scriptsM s with
    | some p => some p
    | none =>
      match openM s with
      | some p => some p
      | none => (closeTagM s).map (fun p => (.closeTag p.1, p.2))
/-! ### Configuration (`StripHtmlPostprocessor.__init__`) -/

/-- Python `str.strip()` (ASCII whitespace granularity). -/
def pyStrip (l : List Char) : List Char :=
  ((l.dropWhile isWS).reverse.dropWhile isWS).reverse
/-- The state captured by `StripHtmlPostprocessor.__init__`: the two
flags and the (stripped) configured attribute names.  `re_attributes`
is derived: it is compiled exactly when the name list is nonempty or
`strip_js_on_attributes` is set. -/
structure Config where
  strip_comments : Bool
  strip_js_on_attributes : Bool
  attrs : List (List Char)
  deriving DecidableEq, Repr
/-- Whether `self.re_attributes` is not `None`. -/
def Config.hasRe (cfg : Config) : Bool :=
  !cfg.attrs.isEmpty || cfg.strip_js_on_attributes
/-- `StripHtmlPostprocessor.__init__` (`md` plays no role in `run`). -/
def mkPostprocessor (strip_comments strip_js_on_attributes : Bool)
    (strip_attributes : List String) : Config :=
  ⟨strip_comments, strip_js_on_attributes,
    strip_attributes.map (fun a => pyStrip a.data)⟩
/-! ### The bad-attribute pattern `TAG_BAD_ATTR`

`(?P<attr>(?:\s+(?:names)(?:\s*=\s*(?:"[^"]*"|'[^']*'|[^\s"'\x60=<>]+)))*)`
where `names` alternates the escaped configured names, with `on[\w]+`
appended when `strip_js_on_attributes` is set.  Note the `=value` part is
not optional in this pattern. -/

/-- The wildcard alternative `on[\w]+` followed by the mandatory
`=value`. -/
def onWildM : M := fun s =>
  match s with
  | 'o' :: 'n' :: t =>
    match plusM isWord t with
    | none => none
    | some (w, r1) =>
      (eqValueM r1).map (fun p => ('o' :: 'n' :: w ++ p.1, p.2))
  | _ => none
/-- The name alternation of `TAG_BAD_ATTR`, each name followed by the
mandatory `=value`; configured names (as escaped literals) in order,
then the `on[\w]+` wildcard if enabled.  A branch whose `=value` part
fails backtracks to the next branch. -/
def badNameM : List (List Char) → Bool → M
  | [], js, s => if js then onWildM s else none
  | n :: ns, js, s =>
    match litM n s with
    | some (c1, r1) =>
      match eqValueM r1 with
      | some (c2, r2) => some (c1 ++ c2, r2)
      | none => badNameM ns js s
    | none => badNameM ns js s
/-- One repetition of the starred group: `\s+(?:names)(?:\s*=\s*value)`. -/
def badRep (cfg : Config) : M := fun s =>
  match plusM isWS s with
  | none => none
  | some (ws, r1) =>
    match badNameM cfg.attrs cfg.strip_js_on_attributes r1 with
    | some (c, r2) => some (ws ++ c, r2)
    | none => none
/-- Additional repetitions (fuelled greedy star). -/
def badRepStar (cfg : Config) : Nat → List Char → List Char × List Char
  | 0, s => ([], s)
  | f + 1, s =>
    match badRep cfg s with
    | some (c, r) =>
      let p := badRepStar cfg f r
      (c ++ p.1, p.2)
    | none => ([], s)
/-- A maximal nonempty match of `TAG_BAD_ATTR` at the current position:
one or more repetitions.  (The pattern itself also matches the empty
string, but an empty match substituted by the empty string leaves the
text unchanged, so `badSub` only acts on nonempty matches.) -/
def badChain (cfg : Config) : M := fun s =>
  match badRep cfg s with
  | none => none
  | some (c, r) =>
    let p := badRepStar cfg r.length r
    some (c ++ p.1, p.2)
/-- `self.re_attributes.sub('', s)`: delete every nonempty match. -/
def badSubAux (cfg : Config) : Nat → List Char → List Char
  | 0, s => s
  | f + 1, s =>
    match badChain cfg s with
    | some (_, r) => badSubAux cfg f r
    | none =>
      match s with
      | [] => []
      | c :: t => c :: badSubAux cfg f t
/-- Bad-attribute substitution over an attribute text. -/
def badSub (cfg : Config) (s : List Char) : List Char :=
  badSubAux cfg s.length s
/-- Attribute rewriting as `repl` performs it: apply the bad-attribute
pattern when it was compiled, else pass the text through. -/
def attrSub (cfg : Config) (s : List Char) : List Char :=
  if cfg.hasRe then badSub cfg s else s
/-! ### `repl` and `run` -/

/-- `StripHtmlPostprocessor.repl`: the per-match replacement. -/
def replM (cfg : Config) : MatchData → List Char
  | .comments t => if cfg.strip_comments then [] else t
  | .scripts o a r => o ++ attrSub cfg a ++ r
  | .openTag o a cl => o ++ attrSub cfg a ++ cl
  | .closeTag t => t
/-- The global substitution loop of `RE_TAG_HTML.sub(self.repl, text)`:
at each position, replace a match or copy one character.  Fuelled; every
match consumes at least one character, so fuel equal to the input length
is always enough. -/
def scanAux (cfg : Config) : Nat → List Char → List Char
  | 0, s => s
  | f + 1, s =>
    match tryMatch s with
    | some (m, r) => replM cfg m ++ scanAux cfg f r
    | none =>
      match s with
      | [] => []
      | c :: t => c :: scanAux cfg f t
/-- `RE_TAG_HTML.sub(self.repl, text)` on character lists. -/
def scanL (cfg : Config) (s : List Char) : List Char :=
  scanAux cfg s.length s
/-- The truthiness test
`strip_comments or strip_js_on_attributes or self.re_attributes`. -/
def Config.strip (cfg : Config) : Bool :=
  cfg.strip_comments || cfg.strip_js_on_attributes || cfg.hasRe
/-- `StripHtmlPostprocessor.run` on character lists. -/
def runL (cfg : Config) (s : List Char) : List Char :=
  if cfg.strip then scanL cfg s else s
/-- `StripHtmlPostprocessor.run`. -/
def runS (cfg : Config) (s : String) : String :=
  ⟨runL cfg s.data⟩
/-- A matcher never consumes the empty prefix. -/
def NE (m : M) : Prop := ∀ s c r, m s = some (c, r) → c ≠ []
/-! ### An error-aware variant of the substitution loop

`scanAuxE` errors out when the fuel is exhausted with input left.  That
the plain `run` model never meets this situation — the scan always
terminates within `length` many steps, consuming the whole input — is
exactly the totality content of the Python `run` never raising. -/

def scanAuxE (cfg : Config) : Nat → List Char → Except Unit (List Char)
  | 0, [] => .ok []
  | 0, _ :: _ => .error ()
  | f + 1, s =>
    match tryMatch s with
    | some (m, r) => (scanAuxE cfg f r).map (fun out => replM cfg m ++ out)
    | none =>
      match s with
      | [] => .ok []
      | c :: t => (scanAuxE cfg f t).map (fun out => c :: out)
/-- `run`, modelled with an explicit error outcome for a scan that would
not terminate within its step budget. -/
def runE (cfg : Config) (s : String) : Except Unit String :=
  if cfg.strip then (scanAuxE cfg s.data.length s.data).map (fun l => ⟨l⟩)
  else .ok s
/-! ### The shape of a span removed by the bad-attribute pattern -/

/-- A value as `TAG_BAD_ATTR` accepts it: double-quoted, single-quoted,
or a nonempty bare token. -/
inductive ValueTok : List Char → Prop where
  | dquote (inner : List Char) (h : ∀ c ∈ inner, c ≠ '"') :
      ValueTok ('"' :: (inner ++ ['"']))
  | squote (inner : List Char) (h : ∀ c ∈ inner, c ≠ '\x27') :
      ValueTok ('\x27' :: (inner ++ ['\x27']))
  | bare (v : List Char) (h1 : v ≠ []) (h2 : ∀ c ∈ v, isBare c) :
      ValueTok v
/-- An attribute name as the alternation of `TAG_BAD_ATTR` accepts it:
one of the configured names as a case-sensitive literal, or — when
`strip_js_on_attributes` is set — `on` followed by at least one word
character. -/
def NameOk (cfg : Config) (nm : List Char) : Prop :=
  nm ∈ cfg.attrs ∨
    (cfg.strip_js_on_attributes = true ∧
      ∃ w, w ≠ [] ∧ (∀ c ∈ w, isWord c) ∧ nm = 'o' :: 'n' :: w)
/-- One repetition of the starred group of `TAG_BAD_ATTR`:
whitespace, a name, and a mandatory `=value` part. -/
inductive Chunk (cfg : Config) : List Char → Prop where
  | mk (ws nm w1 w2 v : List Char)
      (hws : ws ≠ []) (hws2 : ∀ c ∈ ws, isWS c)
      (hnm : NameOk cfg nm)
      (hw1 : ∀ c ∈ w1, isWS c) (hw2 : ∀ c ∈ w2, isWS c)
      (hv : ValueTok v) :
      Chunk cfg (ws ++ (nm ++ (w1 ++ ('=' :: (w2 ++ v)))))
/-- A nonempty concatenation of repetitions. -/
inductive Chunks (cfg : Config) : List Char → Prop where
  | one (c : List Char) : Chunk cfg c → Chunks cfg c
  | cons (c rest : List Char) :
      Chunk cfg c → Chunks cfg rest → Chunks cfg (c ++ rest)
/-! ### `re.escape` and the compilation of configured names

`__init__` embeds each configured attribute name into the derived
pattern after `re.escape`.  `escape` models `re.escape` (CPython's
special-character table); `parseLit` models reading such a fragment back
when the pattern is compiled: an escaped character stands for itself,
while an unescaped special character or a dangling backslash is
rejected (it would change the pattern's meaning or fail to compile). -/

/-- The characters `re.escape` escapes. -/
def pySpecial : List Char :=
  ['(', ')', '[', ']', '\x7b', '\x7d', '?', '*', '+', '-', '|', '^', '$',
   '\\', '.', '&', '~', '#', ' ', '\t', '\n', '\r', '\x0b', '\x0c']
/-- Escape one character. -/
def escapeChar (c : Char) : List Char :=
  if c ∈ pySpecial then ['\\', c] else [c]
/-- `re.escape`. -/
def escape (l : List Char) : List Char := (l.map escapeChar).flatten
/-- Read an escaped pattern fragment back as the literal character
sequence it matches. -/
def parseLit : List Char → Option (List Char)
  | [] => some []
  | c :: rest =>
    if c = '\\' then
      match rest with
      | [] => none
      | d :: rest2 =>
        if d ∈ pySpecial then (parseLit rest2).map (d :: ·) else none
    else if c ∈ pySpecial then none else (parseLit rest).map (c :: ·)
/-- One configured name as `__init__` prepares it: `re.escape(a.strip())`,
read back as the literal it denotes. -/
def compileName (a : String) : Option (List Char) :=
  parseLit (escape (pyStrip a.data))
/-- All configured names, each compiled; `none` if any fails. -/
def compileNames : List String → Option (List (List Char))
  | [] => some []
  | a :: t =>
    match compileName a, compileNames t with
    | some n, some ns => some (n :: ns)
    | _, _ => none
/-- `StripHtmlPostprocessor.__init__` with the compilation of the derived
bad-attribute pattern modelled as fallible. -/
def mkPostprocessorChecked (strip_comments strip_js_on_attributes : Bool)
    (strip_attributes : List String) : Option Config :=
  (compileNames strip_attributes).map
    (fun ns => ⟨strip_comments, strip_js_on_attributes, ns⟩)

end StripHtml

namespace MarkdownMeta
/-!  The `_get_version` helper of `markdown/__meta__.py`. -/

/-- A Python value as the entries of `__version_info__` use them. -/
inductive PyVal where
  | int (n : Nat)
  | str (s : String)
  deriving DecidableEq, Repr
/-- Python `str()` on such a value. -/
def pyStr : PyVal → String
  | .int n => toString n
  | .str s => s
/-- Python `x == 0` on such a value. -/
def isZero : PyVal → Bool
  | .int n => n == 0
  | .str _ => false
/-- The five phases the second assertion admits. -/
def phases : List String := ["dev", "alpha", "beta", "rc", "final"]
/-- `'.'.join`. -/
def joinDots : List String → String
  | [] => ""
  | [x] => x
  | x :: xs => x ++ "." ++ joinDots xs
/-- The dict `{'alpha': 'a', 'beta': 'b', 'rc': 'rc'}` (keyed only with
these three phases). -/
def mapPhase (p : String) : String :=
  if p = "alpha" then "a" else if p = "beta" then "b" else "rc"
/-- `_get_version`, with `none` standing for a raised `AssertionError`. -/
def getVersion (version_info : List PyVal) : Option String :=
  match version_info with
  | [a, b, c, ph, num] =>
    match ph with
    | .str phs =>
      if phs ∈ phases then
        let parts := if isZero c then 2 else 3
        let v := joinDots (([a, b, c].take parts).map pyStr)
        some (if phs = "dev" then v ++ ".dev" ++ pyStr num
              else if phs ≠ "final" then v ++ mapPhase phs ++ pyStr num
              else v)
      else none
    | .int _ => none
  | _ => none

end MarkdownMeta

namespace StripHtml

/-! ### Properties of the embedding -/
theorem good_litM (l : List Char) : Good (litM l) := by
  induction l with
  | nil =>
    intro s c r h
    simp [litM] at h
    simp [h.1, h.2]
  | cons a l' ih =>
    intro s c r h
    cases s with
    | nil => simp [litM] at h
    | cons b s' =>
      simp only [litM] at h
      split at h
      · cases h' : litM l' s' with
        | none => rw [h'] at h; simp at h
        | some p =>
          rw [h'] at h
          simp at h
          obtain ⟨h1, h2⟩ := h
          have := ih s' p.1 p.2 (by rw [h'])
          subst h1 h2
          simp [this]
      · simp at h
theorem good_starM (p : Char → Bool) : Good (starM p) := by
  intro s c r h
  simp [starM] at h
  rw [← h.1, ← h.2]
  exact List.takeWhile_append_dropWhile p s
theorem good_plusM (p : Char → Bool) : Good (plusM p) := by
  intro s c r h
  simp only [plusM] at h
  cases e : s.takeWhile p with
  | nil => rw [e] at h; simp at h
  | cons a t =>
    rw [e] at h
    simp at h
    obtain ⟨h1, h2⟩ := h
    subst h1; subst h2
    rw [← e]
    exact List.takeWhile_append_dropWhile p s
theorem good_seqM {m₁ m₂ : M} (h₁ : Good m₁) (h₂ : Good m₂) :
    Good (seqM m₁ m₂) := by
  intro s c r h
  simp only [seqM] at h
  cases e1 : m₁ s with
  | none => rw [e1] at h; simp at h
  | some p1 =>
    obtain ⟨c1, r1⟩ := p1
    rw [e1] at h
    cases e2 : m₂ r1 with
    | none => simp [e2] at h
    | some p2 =>
      obtain ⟨c2, r2⟩ := p2
      simp [e2] at h
      obtain ⟨h1, h2⟩ := h
      subst h1; subst h2
      have g1 := h₁ s c1 r1 e1
      have g2 := h₂ r1 c2 r2 e2
      rw [List.append_assoc, g2, g1]
theorem good_altM {m₁ m₂ : M} (h₁ : Good m₁) (h₂ : Good m₂) :
    Good (altM m₁ m₂) := by
  intro s c r h
  simp only [altM] at h
  cases e1 : m₁ s with
  | none => rw [e1] at h; exact h₂ s c r h
  | some p1 =>
    rw [e1] at h
    simp at h
    subst h
    exact h₁ s c r e1
theorem good_optM {m : M} (hm : Good m) : Good (optM m) := by
  intro s c r h
  simp only [optM] at h
  cases e1 : m s with
  | none => rw [e1] at h; simp at h; simp [h.1, h.2]
  | some p1 =>
    rw [e1] at h
    simp at h
    subst h
    exact hm s c r e1
/-- The consumed prefix of a literal matcher is the literal itself. -/
theorem litM_consumed (l : List Char) :
    ∀ s c r, litM l s = some (c, r) → c = l := by
  induction l with
  | nil => intro s c r h; simp [litM] at h; exact h.1
  | cons a l' ih =>
    intro s c r h
    cases s with
    | nil => simp [litM] at h
    | cons b s' =>
      simp only [litM] at h
      split at h
      · next hab =>
        cases e : litM l' s' with
        | none => rw [e] at h; simp at h
        | some p =>
          rw [e] at h
          simp at h
          have := ih s' p.1 p.2 (by rw [e])
          rw [← h.1, this, hab]
      · simp at h
/-! ### Split and progress lemmas -/

theorem good_quotedM (q : Char) : Good (quotedM q) :=
  good_seqM (good_litM _) (good_seqM (good_starM _) (good_litM _))
theorem good_valueM : Good valueM :=
  good_altM (good_quotedM _) (good_altM (good_quotedM _) (good_plusM _))
theorem good_eqValueM : Good eqValueM :=
  good_seqM (good_starM _)
    (good_seqM (good_litM _) (good_seqM (good_starM _) good_valueM))
theorem good_attrTokenM : Good attrTokenM :=
  good_seqM (good_plusM _) (good_seqM (good_plusM _) (good_optM good_eqValueM))
theorem attrStar_split (f : Nat) (s : List Char) :
    (attrStar f s).1 ++ (attrStar f s).2 = s := by
  induction f generalizing s with
  | zero => simp [attrStar]
  | succ f ih =>
    simp only [attrStar]
    cases e : attrTokenM s with
    | none => simp
    | some p =>
      obtain ⟨c, r⟩ := p
      have h1 := good_attrTokenM s c r e
      simp only
      rw [List.append_assoc, ih r, h1]
theorem good_tagCloseM : Good tagCloseM :=
  good_seqM (good_starM _) (good_altM (good_litM _) (good_litM _))
theorem good_closeTagM : Good closeTagM :=
  good_seqM (good_litM _)
    (good_seqM (good_plusM _) (good_seqM (good_starM _) (good_litM _)))
theorem good_closeForM (nm : List Char) : Good (closeForM nm) :=
  good_seqM (good_litM _) (good_seqM (good_starM _) (good_litM _))
theorem good_findClose (nm : List Char) : Good (findClose nm) := by
  intro s
  induction s with
  | nil => intro c r h; simp [findClose] at h
  | cons a t ih =>
    intro c r h
    simp only [findClose] at h
    cases e : closeForM nm (a :: t) with
    | some p =>
      obtain ⟨c1, r1⟩ := p
      rw [e] at h
      simp at h
      obtain ⟨h1, h2⟩ := h
      subst h1; subst h2
      exact good_closeForM nm (a :: t) c1 r1 e
    | none =>
      rw [e] at h
      cases e2 : findClose nm t with
      | none => rw [e2] at h; simp at h
      | some p =>
        obtain ⟨c2, r2⟩ := p
        rw [e2] at h
        simp at h
        obtain ⟨h1, h2⟩ := h
        subst h1; subst h2
        simpa using ih c2 r2 e2
theorem good_scriptRestM (nm : List Char) : Good (scriptRestM nm) :=
  good_seqM (good_starM _) (good_seqM (good_litM _) (good_findClose nm))
theorem scriptNameM_split (s : List Char) (nm r : List Char)
    (h : scriptNameM s = some (nm, r)) :
    nm ++ r = s ∧ (nm = "style".data ∨ nm = "script".data) := by
  simp only [scriptNameM] at h
  cases e1 : litM ['s', 't', 'y', 'l', 'e'] s with
  | some p =>
    obtain ⟨c1, r1⟩ := p
    rw [e1] at h
    simp at h
    obtain ⟨h1, h2⟩ := h
    subst h1; subst h2
    exact ⟨good_litM _ s _ _ e1, Or.inl (litM_consumed _ s _ _ e1)⟩
  | none =>
    rw [e1] at h
    exact ⟨good_litM _ s nm r h, Or.inr (litM_consumed _ s nm r h)⟩
theorem commEnd_eq (s r : List Char) (h : commEnd s = some r) :
    s = '-' :: '-' :: '>' :: r := by
  rw [commEnd.eq_def] at h
  split at h
  · simp at h
    rw [h]
  · simp at h
theorem good_commentBody : Good commentBody := by
  intro s
  induction s with
  | nil => intro c r h; simp [commentBody] at h
  | cons a t ih =>
    intro c r h
    simp only [commentBody] at h
    cases e : commEnd (a :: t) with
    | some r' =>
      rw [e] at h
      simp at h
      obtain ⟨h1, h2⟩ := h
      subst h1; subst h2
      rw [commEnd_eq _ _ e]
      rfl
    | none =>
      rw [e] at h
      cases e2 : commentBody t with
      | none => rw [e2] at h; simp at h
      | some p =>
        obtain ⟨c2, r2⟩ := p
        rw [e2] at h
        simp at h
        obtain ⟨h1, h2⟩ := h
        subst h1; subst h2
        simpa using ih c2 r2 e2
theorem trailK_le (t : List Char) :
    ∀ w k, trailK t w = some k → k ≤ w := by
  intro w
  induction w with
  | zero =>
    intro k h
    simp only [trailK] at h
    split at h
    · simp at h; omega
    · simp at h
  | succ w ih =>
    intro k h
    simp only [trailK] at h
    split at h
    · simp at h; omega
    · exact Nat.le_trans (ih k h) (Nat.le_succ w)
theorem commentM_split (s c r : List Char) (h : commentM s = some (c, r)) :
    c ++ r = s ∧ c ≠ [] := by
  simp only [commentM] at h
  cases e1 : litM ['<', '!', '-', '-'] (s.dropWhile isWS) with
  | none => rw [e1] at h; simp at h
  | some p1 =>
    obtain ⟨c1, r2⟩ := p1
    rw [e1] at h
    have hc1 : c1 = ['<', '!', '-', '-'] := litM_consumed _ _ _ _ e1
    have g1 : c1 ++ r2 = s.dropWhile isWS := good_litM _ _ _ _ e1
    cases e2 : commentBody r2 with
    | none => simp [e2] at h
    | some p2 =>
      obtain ⟨body, r3⟩ := p2
      have g2 : body ++ r3 = r2 := good_commentBody r2 body r3 e2
      simp only [e2] at h
      cases e3 : trailK r3 (r3.takeWhile isWS).length with
      | some k =>
        simp only [e3] at h
        simp at h
        obtain ⟨h1, h2⟩ := h
        subst h1; subst h2
        constructor
        · have key : s.takeWhile isWS ++ (c1 ++ (body ++ (r3.take k ++ r3.drop k)))
              = s := by
            rw [List.take_append_drop, g2, g1,
              List.takeWhile_append_dropWhile]
          simp only [List.append_assoc]
          simp only [List.append_assoc] at key
          exact key
        · simp [hc1, List.append_eq_nil]
      | none =>
        simp only [e3] at h
        cases e4 : s.takeWhile isWS with
        | cons a t => simp [e4] at h
        | nil =>
          simp only [e4] at h
          simp at h
          obtain ⟨h1, h2⟩ := h
          subst h1; subst h2
          constructor
          · rw [List.append_assoc, g2, g1]
            have := List.takeWhile_append_dropWhile isWS s
            rw [e4] at this
            simpa using this
          · simp [hc1, List.append_eq_nil]
theorem ne_litM_cons (a : Char) (l : List Char) : NE (litM (a :: l)) := by
  intro s c r h
  have := litM_consumed (a :: l) s c r h
  subst this
  simp
theorem ne_seqM_left {m₁ m₂ : M} (h₁ : NE m₁) : NE (seqM m₁ m₂) := by
  intro s c r h
  simp only [seqM] at h
  cases e1 : m₁ s with
  | none => rw [e1] at h; simp at h
  | some p1 =>
    obtain ⟨c1, r1⟩ := p1
    rw [e1] at h
    cases e2 : m₂ r1 with
    | none => simp [e2] at h
    | some p2 =>
      obtain ⟨c2, r2⟩ := p2
      simp [e2] at h
      obtain ⟨hh1, _⟩ := h
      subst hh1
      have hne := h₁ s c1 r1 e1
      simp [List.append_eq_nil]
      intro hc1
      exact absurd hc1 hne
theorem ne_closeTagM : NE closeTagM := ne_seqM_left (ne_litM_cons _ _)
theorem scriptsM_split (s : List Char) (m : MatchData) (r : List Char)
    (h : scriptsM s = some (m, r)) : m.text ++ r = s ∧ m.text ≠ [] := by
  rw [scriptsM.eq_def] at h
  split at h
  · next t =>
    cases e1 : scriptNameM t with
    | none => rw [e1] at h; simp at h
    | some p1 =>
      obtain ⟨nm, r1⟩ := p1
      rw [e1] at h
      have g1 := (scriptNameM_split t nm r1 e1).1
      simp only at h
      cases e2 : scriptRestM nm (attrsM r1).2 with
      | none => simp [e2] at h
      | some p2 =>
        obtain ⟨rest, r3⟩ := p2
        have g2 := good_scriptRestM nm (attrsM r1).2 rest r3 e2
        have ga : (attrsM r1).1 ++ (attrsM r1).2 = r1 := attrStar_split _ _
        simp [e2] at h
        obtain ⟨h1, h2⟩ := h
        subst h1; subst h2
        constructor
        · simp only [MatchData.text, List.cons_append, List.append_assoc]
          rw [g2, ga, g1]
        · simp [MatchData.text]
  · simp at h
theorem openM_split (s : List Char) (m : MatchData) (r : List Char)
    (h : openM s = some (m, r)) : m.text ++ r = s ∧ m.text ≠ [] := by
  rw [openM.eq_def] at h
  split at h
  · next t =>
    cases e1 : plusM isNameChar t with
    | none => rw [e1] at h; simp at h
    | some p1 =>
      obtain ⟨nm, r1⟩ := p1
      rw [e1] at h
      have g1 := good_plusM isNameChar t nm r1 e1
      simp only at h
      cases e2 : tagCloseM (attrsM r1).2 with
      | none => simp [e2] at h
      | some p2 =>
        obtain ⟨cl, r3⟩ := p2
        have g2 := good_tagCloseM (attrsM r1).2 cl r3 e2
        have ga : (attrsM r1).1 ++ (attrsM r1).2 = r1 := attrStar_split _ _
        simp [e2] at h
        obtain ⟨h1, h2⟩ := h
        subst h1; subst h2
        constructor
        · simp only [MatchData.text, List.cons_append, List.append_assoc]
          rw [g2, ga, g1]
        · simp [MatchData.text]
  · simp at h
theorem tryMatch_split (s : List Char) (m : MatchData) (r : List Char)
    (h : tryMatch s = some (m, r)) : m.text ++ r = s ∧ m.text ≠ [] := by
  simp only [tryMatch] at h
  cases e1 : commentM s with
  | some p1 =>
    obtain ⟨c1, r1⟩ := p1
    rw [e1] at h
    simp at h
    obtain ⟨h1, h2⟩ := h
    subst h1; subst h2
    exact commentM_split s c1 r1 e1
  | none =>
    rw [e1] at h
    cases e2 : scriptsM s with
    | some p2 =>
      rw [e2] at h
      simp at h
      subst h
      exact scriptsM_split s m r e2
    | none =>
      rw [e2] at h
      cases e3 : openM s with
      | some p3 =>
        rw [e3] at h
        simp at h
        subst h
        exact openM_split s m r e3
      | none =>
        rw [e3] at h
        cases e4 : closeTagM s with
        | none => rw [e4] at h; simp at h
        | some p4 =>
          obtain ⟨c4, r4⟩ := p4
          rw [e4] at h
          simp at h
          obtain ⟨h1, h2⟩ := h
          subst h1; subst h2
          refine ⟨good_closeTagM s c4 r4 e4, ?_⟩
          simpa [MatchData.text] using ne_closeTagM s c4 r4 e4
theorem tryMatch_progress (s : List Char) (m : MatchData) (r : List Char)
    (h : tryMatch s = some (m, r)) : r.length < s.length := by
  obtain ⟨hsplit, hne⟩ := tryMatch_split s m r h
  have hlen := congrArg List.length hsplit
  simp only [List.length_append] at hlen
  have hpos : 0 < m.text.length := by
    cases e : m.text with
    | nil => exact absurd e hne
    | cons a t => simp [e]
  omega
theorem good_onWildM : Good onWildM := by
  intro s c r h
  rw [onWildM.eq_def] at h
  split at h
  · next t =>
    cases e1 : plusM isWord t with
    | none => rw [e1] at h; simp at h
    | some p1 =>
      obtain ⟨w, r1⟩ := p1
      rw [e1] at h
      cases e2 : eqValueM r1 with
      | none => simp [e2] at h
      | some p2 =>
        obtain ⟨c2, r2⟩ := p2
        simp [e2] at h
        obtain ⟨h1, h2⟩ := h
        subst h1; subst h2
        have g1 := good_plusM isWord t w r1 e1
        have g2 := good_eqValueM r1 c2 r2 e2
        simp only [List.cons_append, List.append_assoc]
        rw [g2, g1]
  · simp at h
theorem good_badNameM (ns : List (List Char)) (js : Bool) :
    Good (badNameM ns js) := by
  induction ns with
  | nil =>
    intro s c r h
    simp only [badNameM] at h
    split at h
    · exact good_onWildM s c r h
    · simp at h
  | cons n ns ih =>
    intro s c r h
    simp only [badNameM] at h
    cases e1 : litM n s with
    | none => rw [e1] at h; exact ih s c r h
    | some p1 =>
      obtain ⟨c1, r1⟩ := p1
      rw [e1] at h
      cases e2 : eqValueM r1 with
      | none => simp only [e2] at h; exact ih s c r h
      | some p2 =>
        obtain ⟨c2, r2⟩ := p2
        simp [e2] at h
        obtain ⟨h1, h2⟩ := h
        subst h1; subst h2
        have g1 := good_litM n s c1 r1 e1
        have g2 := good_eqValueM r1 c2 r2 e2
        rw [List.append_assoc, g2, g1]
theorem badRep_split (cfg : Config) (s c r : List Char)
    (h : badRep cfg s = some (c, r)) : c ++ r = s ∧ c ≠ [] := by
  simp only [badRep] at h
  cases e1 : plusM isWS s with
  | none => rw [e1] at h; simp at h
  | some p1 =>
    obtain ⟨ws, r1⟩ := p1
    rw [e1] at h
    cases e2 : badNameM cfg.attrs cfg.strip_js_on_attributes r1 with
    | none => simp [e2] at h
    | some p2 =>
      obtain ⟨c2, r2⟩ := p2
      simp [e2] at h
      obtain ⟨h1, h2⟩ := h
      subst h1; subst h2
      have g1 := good_plusM isWS s ws r1 e1
      have g2 := good_badNameM cfg.attrs cfg.strip_js_on_attributes r1 c2 r2 e2
      constructor
      · rw [List.append_assoc, g2, g1]
      · have : ws ≠ [] := by
          simp only [plusM] at e1
          cases e3 : s.takeWhile isWS with
          | nil => rw [e3] at e1; simp at e1
          | cons a t =>
            rw [e3] at e1
            simp at e1
            rw [← e1.1]
            simp
        simp [List.append_eq_nil]
        intro hws
        exact absurd hws this
theorem badRepStar_split (cfg : Config) (f : Nat) (s : List Char) :
    (badRepStar cfg f s).1 ++ (badRepStar cfg f s).2 = s := by
  induction f generalizing s with
  | zero => simp [badRepStar]
  | succ f ih =>
    simp only [badRepStar]
    cases e : badRep cfg s with
    | none => simp
    | some p =>
      obtain ⟨c, r⟩ := p
      have h1 := (badRep_split cfg s c r e).1
      simp only
      rw [List.append_assoc, ih r, h1]
theorem badChain_split (cfg : Config) (s c r : List Char)
    (h : badChain cfg s = some (c, r)) : c ++ r = s ∧ c ≠ [] := by
  simp only [badChain] at h
  cases e1 : badRep cfg s with
  | none => rw [e1] at h; simp at h
  | some p1 =>
    obtain ⟨c1, r1⟩ := p1
    rw [e1] at h
    simp at h
    obtain ⟨h1, h2⟩ := h
    subst h1; subst h2
    obtain ⟨g1, gne⟩ := badRep_split cfg s c1 r1 e1
    constructor
    · rw [List.append_assoc, badRepStar_split cfg r1.length r1, g1]
    · simp [List.append_eq_nil]
      intro hc1
      exact absurd hc1 gne
/-! ### Length bounds (the rewrite never grows the text) -/

theorem badSubAux_length (cfg : Config) (f : Nat) (s : List Char) :
    (badSubAux cfg f s).length ≤ s.length := by
  induction f generalizing s with
  | zero => simp [badSubAux]
  | succ f ih =>
    simp only [badSubAux]
    cases e : badChain cfg s with
    | some p =>
      obtain ⟨c, r⟩ := p
      obtain ⟨g1, _⟩ := badChain_split cfg s c r e
      have : r.length ≤ s.length := by
        have := congrArg List.length g1
        simp only [List.length_append] at this
        omega
      exact Nat.le_trans (ih r) this
    | none =>
      cases s with
      | nil => simp
      | cons a t =>
        simp only [List.length_cons]
        exact Nat.succ_le_succ (ih t)
theorem badSub_length (cfg : Config) (s : List Char) :
    (badSub cfg s).length ≤ s.length := badSubAux_length cfg s.length s
theorem attrSub_length (cfg : Config) (s : List Char) :
    (attrSub cfg s).length ≤ s.length := by
  simp only [attrSub]
  split
  · exact badSub_length cfg s
  · exact Nat.le_refl _
theorem replM_length (cfg : Config) (m : MatchData) :
    (replM cfg m).length ≤ m.text.length := by
  cases m with
  | comments t =>
    simp only [replM, MatchData.text]
    split <;> simp
  | scripts o a r =>
    simp only [replM, MatchData.text, List.length_append]
    have := attrSub_length cfg a
    omega
  | openTag o a cl =>
    simp only [replM, MatchData.text, List.length_append]
    have := attrSub_length cfg a
    omega
  | closeTag t => simp [replM, MatchData.text]
theorem scanAux_length (cfg : Config) (f : Nat) (s : List Char) :
    (scanAux cfg f s).length ≤ s.length := by
  induction f generalizing s with
  | zero => simp [scanAux]
  | succ f ih =>
    simp only [scanAux]
    cases e : tryMatch s with
    | some p =>
      obtain ⟨m, r⟩ := p
      obtain ⟨g1, _⟩ := tryMatch_split s m r e
      have hlen := congrArg List.length g1
      simp only [List.length_append] at hlen
      have h1 := replM_length cfg m
      have h2 := ih r
      simp only [List.length_append]
      omega
    | none =>
      cases s with
      | nil => simp
      | cons a t =>
        simp only [List.length_cons]
        exact Nat.succ_le_succ (ih t)
/-! ### Fuel sufficiency: any fuel at least the input length is enough -/

theorem tryMatch_nil : tryMatch [] = none := rfl
theorem scanAux_fuel (cfg : Config) (f g : Nat) (s : List Char)
    (hf : s.length ≤ f) (hg : s.length ≤ g) :
    scanAux cfg f s = scanAux cfg g s := by
  induction f generalizing g s with
  | zero =>
    have : s = [] := List.length_eq_zero.mp (Nat.le_zero.mp hf)
    subst this
    cases g with
    | zero => rfl
    | succ g => simp [scanAux, tryMatch_nil]
  | succ f ih =>
    cases g with
    | zero =>
      have : s = [] := List.length_eq_zero.mp (Nat.le_zero.mp hg)
      subst this
      simp [scanAux, tryMatch_nil]
    | succ g =>
      simp only [scanAux]
      cases e : tryMatch s with
      | some p =>
        obtain ⟨m, r⟩ := p
        have hr := tryMatch_progress s m r e
        dsimp only
        rw [ih g r (by omega) (by omega)]
      | none =>
        cases s with
        | nil => rfl
        | cons a t =>
          dsimp only
          simp only [List.length_cons] at hf hg
          rw [ih g t (by omega) (by omega)]
theorem scanAuxE_ok (cfg : Config) (f : Nat) (s : List Char)
    (hf : s.length ≤ f) : scanAuxE cfg f s = .ok (scanAux cfg f s) := by
  induction f generalizing s with
  | zero =>
    have : s = [] := List.length_eq_zero.mp (Nat.le_zero.mp hf)
    subst this
    rfl
  | succ f ih =>
    simp only [scanAuxE, scanAux]
    cases e : tryMatch s with
    | some p =>
      obtain ⟨m, r⟩ := p
      have hr := tryMatch_progress s m r e
      dsimp only
      rw [ih r (by omega)]
      rfl
    | none =>
      cases s with
      | nil => rfl
      | cons a t =>
        dsimp only
        simp only [List.length_cons] at hf
        rw [ih t (by omega)]
        rfl
/-! ### Inputs without `<` are left untouched -/

theorem litM_head_mem (a : Char) (l s c r : List Char)
    (h : litM (a :: l) s = some (c, r)) : a ∈ s := by
  cases s with
  | nil => simp [litM] at h
  | cons b t =>
    simp only [litM] at h
    split at h
    · next hab => rw [hab]; exact List.mem_cons_self b t
    · simp at h
theorem mem_dropWhile (p : Char → Bool) :
    ∀ (l : List Char) (a : Char), a ∈ l.dropWhile p → a ∈ l := by
  intro l
  induction l with
  | nil => intro a h; simp [List.dropWhile] at h
  | cons b t ih =>
    intro a h
    rw [List.dropWhile_cons] at h
    split at h
    · exact List.mem_cons_of_mem b (ih a h)
    · exact h
theorem tryMatch_no_lt (s : List Char) (hnl : '<' ∉ s) :
    tryMatch s = none := by
  have hcm : commentM s = none := by
    simp only [commentM]
    cases e : litM ['<', '!', '-', '-'] (s.dropWhile isWS) with
    | none => rfl
    | some p =>
      obtain ⟨c, r⟩ := p
      have := litM_head_mem '<' _ _ c r e
      exact absurd (mem_dropWhile isWS s '<' this) hnl
  have hsc : scriptsM s = none := by
    rw [scriptsM.eq_def]
    split
    · next t => exact absurd (List.mem_cons_self '<' t) hnl
    · rfl
  have hop : openM s = none := by
    rw [openM.eq_def]
    split
    · next t => exact absurd (List.mem_cons_self '<' t) hnl
    · rfl
  have hct : closeTagM s = none := by
    simp only [closeTagM, seqM]
    cases e : litM ['<', '/'] s with
    | none => rfl
    | some p =>
      obtain ⟨c, r⟩ := p
      exact absurd (litM_head_mem '<' _ _ c r e) hnl
  simp [tryMatch, hcm, hsc, hop, hct]
theorem scanAux_no_lt (cfg : Config) (f : Nat) (s : List Char)
    (hnl : '<' ∉ s) : scanAux cfg f s = s := by
  induction f generalizing s with
  | zero => rfl
  | succ f ih =>
    simp only [scanAux, tryMatch_no_lt s hnl]
    cases s with
    | nil => rfl
    | cons a t =>
      have hnt : '<' ∉ t := fun hm => hnl (List.mem_cons_of_mem a hm)
      dsimp only
      rw [ih t hnt]
theorem runL_no_lt (cfg : Config) (s : List Char) (hnl : '<' ∉ s) :
    runL cfg s = s := by
  simp only [runL, scanL]
  split
  · exact scanAux_no_lt cfg s.length s hnl
  · rfl
theorem seqM_inv {m₁ m₂ : M} {s c r : List Char}
    (h : seqM m₁ m₂ s = some (c, r)) :
    ∃ c1 r1 c2, m₁ s = some (c1, r1) ∧ m₂ r1 = some (c2, r) ∧ c = c1 ++ c2 := by
  simp only [seqM] at h
  cases e1 : m₁ s with
  | none => rw [e1] at h; simp at h
  | some p1 =>
    obtain ⟨c1, r1⟩ := p1
    rw [e1] at h
    cases e2 : m₂ r1 with
    | none => simp [e2] at h
    | some p2 =>
      obtain ⟨c2, r2⟩ := p2
      simp [e2] at h
      exact ⟨c1, r1, c2, rfl, by rw [← h.2]; exact e2, h.1.symm⟩
theorem altM_inv {m₁ m₂ : M} {s : List Char} {p : List Char × List Char}
    (h : altM m₁ m₂ s = some p) : m₁ s = some p ∨ m₂ s = some p := by
  simp only [altM] at h
  cases e1 : m₁ s with
  | none => rw [e1] at h; exact Or.inr h
  | some p1 => rw [e1] at h; exact Or.inl h
theorem starM_inv {p : Char → Bool} {s c r : List Char}
    (h : starM p s = some (c, r)) :
    c = s.takeWhile p ∧ r = s.dropWhile p := by
  simp only [starM] at h
  simp at h
  exact ⟨h.1.symm, h.2.symm⟩
theorem plusM_inv {p : Char → Bool} {s c r : List Char}
    (h : plusM p s = some (c, r)) :
    c = s.takeWhile p ∧ r = s.dropWhile p ∧ c ≠ [] := by
  simp only [plusM] at h
  cases e : s.takeWhile p with
  | nil => rw [e] at h; simp at h
  | cons a t =>
    rw [e] at h
    simp at h
    exact ⟨h.1.symm, h.2.symm, by rw [← h.1]; simp⟩
theorem quotedM_tok (q : Char) (s c r : List Char)
    (h : quotedM q s = some (c, r)) :
    ∃ inner, c = q :: (inner ++ [q]) ∧ ∀ d ∈ inner, d ≠ q := by
  obtain ⟨c1, r1, c2, e1, e2, hc⟩ := seqM_inv h
  obtain ⟨c3, r3, c4, e3, e4, hc2⟩ := seqM_inv e2
  have h1 : c1 = [q] := litM_consumed _ _ _ _ e1
  have h4 : c4 = [q] := litM_consumed _ _ _ _ e4
  obtain ⟨h3, _⟩ := starM_inv e3
  refine ⟨c3, ?_, ?_⟩
  · rw [hc, hc2, h1, h4]
    simp
  · intro d hd
    rw [h3] at hd
    have := List.mem_takeWhile_imp hd
    simpa using this
theorem valueM_tok (s c r : List Char) (h : valueM s = some (c, r)) :
    ValueTok c := by
  rcases altM_inv h with h1 | h1
  · obtain ⟨inner, hc, hi⟩ := quotedM_tok '"' s c r h1
    rw [hc]
    exact ValueTok.dquote inner hi
  · rcases altM_inv h1 with h2 | h2
    · obtain ⟨inner, hc, hi⟩ := quotedM_tok '\x27' s c r h2
      rw [hc]
      exact ValueTok.squote inner hi
    · obtain ⟨hc, _, hne⟩ := plusM_inv h2
      refine ValueTok.bare c hne ?_
      intro x hx
      rw [hc] at hx
      exact List.mem_takeWhile_imp hx
theorem eqValueM_shape (s c r : List Char) (h : eqValueM s = some (c, r)) :
    ∃ w1 w2 v, c = w1 ++ ('=' :: (w2 ++ v)) ∧
      (∀ x ∈ w1, isWS x) ∧ (∀ x ∈ w2, isWS x) ∧ ValueTok v := by
  obtain ⟨w1, r1, c2, e1, e2, hc⟩ := seqM_inv h
  obtain ⟨ceq, r2, c3, e3, e4, hc2⟩ := seqM_inv e2
  obtain ⟨w2, r3, v, e5, e6, hc3⟩ := seqM_inv e4
  have heq : ceq = ['='] := litM_consumed _ _ _ _ e3
  obtain ⟨hw1, _⟩ := starM_inv e1
  obtain ⟨hw2, _⟩ := starM_inv e5
  refine ⟨w1, w2, v, ?_, ?_, ?_, valueM_tok _ _ _ e6⟩
  · rw [hc, hc2, hc3, heq]
    rfl
  · intro x hx
    rw [hw1] at hx
    exact List.mem_takeWhile_imp hx
  · intro x hx
    rw [hw2] at hx
    exact List.mem_takeWhile_imp hx
theorem onWildM_shape (s c r : List Char) (h : onWildM s = some (c, r)) :
    ∃ w cv, c = ('o' :: 'n' :: w) ++ cv ∧ w ≠ [] ∧ (∀ x ∈ w, isWord x) ∧
      ∃ w1 w2 v, cv = w1 ++ ('=' :: (w2 ++ v)) ∧
        (∀ x ∈ w1, isWS x) ∧ (∀ x ∈ w2, isWS x) ∧ ValueTok v := by
  rw [onWildM.eq_def] at h
  split at h
  · next t =>
    cases e1 : plusM isWord t with
    | none => rw [e1] at h; simp at h
    | some p1 =>
      obtain ⟨w, r1⟩ := p1
      rw [e1] at h
      cases e2 : eqValueM r1 with
      | none => simp [e2] at h
      | some p2 =>
        obtain ⟨cv, r2⟩ := p2
        simp [e2] at h
        obtain ⟨hw, _, hwne⟩ := plusM_inv e1
        obtain ⟨h1, h2⟩ := h
        refine ⟨w, cv, ?_, hwne, ?_, eqValueM_shape _ _ _ (by rw [e2, h2])⟩
        · rw [← h1]
          simp
        · intro x hx
          rw [hw] at hx
          exact List.mem_takeWhile_imp hx
  · simp at h
theorem badNameM_shape (ns : List (List Char)) (js : Bool)
    (s c r : List Char) (h : badNameM ns js s = some (c, r)) :
    ∃ nm cv, c = nm ++ cv ∧
      (nm ∈ ns ∨ (js = true ∧ ∃ w, w ≠ [] ∧ (∀ x ∈ w, isWord x) ∧
        nm = 'o' :: 'n' :: w)) ∧
      ∃ w1 w2 v, cv = w1 ++ ('=' :: (w2 ++ v)) ∧
        (∀ x ∈ w1, isWS x) ∧ (∀ x ∈ w2, isWS x) ∧ ValueTok v := by
  induction ns with
  | nil =>
    simp only [badNameM] at h
    split at h
    · next hjs =>
      obtain ⟨w, cv, hc, hwne, hw, hshape⟩ := onWildM_shape s c r h
      exact ⟨'o' :: 'n' :: w, cv, hc,
        Or.inr ⟨hjs, w, hwne, hw, rfl⟩, hshape⟩
    · simp at h
  | cons n ns ih =>
    simp only [badNameM] at h
    cases e1 : litM n s with
    | none =>
      rw [e1] at h
      obtain ⟨nm, cv, hc, hnm, hshape⟩ := ih h
      refine ⟨nm, cv, hc, ?_, hshape⟩
      rcases hnm with hmem | hwild
      · exact Or.inl (List.mem_cons_of_mem n hmem)
      · exact Or.inr hwild
    | some p1 =>
      obtain ⟨c1, r1⟩ := p1
      rw [e1] at h
      cases e2 : eqValueM r1 with
      | none =>
        simp only [e2] at h
        obtain ⟨nm, cv, hc, hnm, hshape⟩ := ih h
        refine ⟨nm, cv, hc, ?_, hshape⟩
        rcases hnm with hmem | hwild
        · exact Or.inl (List.mem_cons_of_mem n hmem)
        · exact Or.inr hwild
      | some p2 =>
        obtain ⟨cv, r2⟩ := p2
        simp [e2] at h
        have hn : c1 = n := litM_consumed _ _ _ _ e1
        refine ⟨n, cv, ?_, Or.inl (List.mem_cons_self n ns),
          eqValueM_shape _ _ _ (by rw [e2, h.2])⟩
        rw [← h.1, hn]
theorem badRep_chunk (cfg : Config) (s c r : List Char)
    (h : badRep cfg s = some (c, r)) : Chunk cfg c := by
  simp only [badRep] at h
  cases e1 : plusM isWS s with
  | none => rw [e1] at h; simp at h
  | some p1 =>
    obtain ⟨ws, r1⟩ := p1
    rw [e1] at h
    cases e2 : badNameM cfg.attrs cfg.strip_js_on_attributes r1 with
    | none => simp [e2] at h
    | some p2 =>
      obtain ⟨c2, r2⟩ := p2
      simp [e2] at h
      obtain ⟨hws, _, hwsne⟩ := plusM_inv e1
      obtain ⟨nm, cv, hc2, hnm, w1, w2, v, hcv, hw1, hw2, hv⟩ :=
        badNameM_shape cfg.attrs cfg.strip_js_on_attributes r1 c2 r2 e2
      have hnmok : NameOk cfg nm := hnm
      have hwsall : ∀ x ∈ ws, isWS x := by
        intro x hx
        rw [hws] at hx
        exact List.mem_takeWhile_imp hx
      have : c = ws ++ (nm ++ (w1 ++ ('=' :: (w2 ++ v)))) := by
        rw [← h.1, hc2, hcv]
      rw [this]
      exact Chunk.mk ws nm w1 w2 v hwsne hwsall hnmok hw1 hw2 hv
theorem badRepStar_chunks (cfg : Config) (f : Nat) (s : List Char) :
    (badRepStar cfg f s).1 = [] ∨ Chunks cfg (badRepStar cfg f s).1 := by
  induction f generalizing s with
  | zero => simp [badRepStar]
  | succ f ih =>
    simp only [badRepStar]
    cases e : badRep cfg s with
    | none => simp
    | some p =>
      obtain ⟨c, r⟩ := p
      have hck := badRep_chunk cfg s c r e
      dsimp only
      rcases ih r with hnil | hch
      · rw [hnil]
        right
        rw [List.append_nil]
        exact Chunks.one c hck
      · right
        exact Chunks.cons c _ hck hch
theorem badChain_chunks (cfg : Config) (s c r : List Char)
    (h : badChain cfg s = some (c, r)) : Chunks cfg c := by
  simp only [badChain] at h
  cases e1 : badRep cfg s with
  | none => rw [e1] at h; simp at h
  | some p1 =>
    obtain ⟨c1, r1⟩ := p1
    rw [e1] at h
    simp at h
    have hck := badRep_chunk cfg s c1 r1 e1
    rw [← h.1]
    rcases badRepStar_chunks cfg r1.length r1 with hnil | hch
    · rw [hnil, List.append_nil]
      exact Chunks.one c1 hck
    · exact Chunks.cons c1 _ hck hch
theorem chunk_has_eq {cfg : Config} {c : List Char} (h : Chunk cfg c) :
    '=' ∈ c := by
  cases h with
  | mk ws nm w1 w2 v hws hws2 hnm hw1 hw2 hv =>
    simp [List.mem_append]
theorem chunks_has_eq {cfg : Config} {c : List Char} (h : Chunks cfg c) :
    '=' ∈ c := by
  induction h with
  | one c hc => exact chunk_has_eq hc
  | cons c rest hc _ ih => exact List.mem_append_left rest (chunk_has_eq hc)
theorem parseLit_escape (l : List Char) : parseLit (escape l) = some l := by
  induction l with
  | nil => rfl
  | cons c t ih =>
    by_cases hc : c ∈ pySpecial
    · have he : escape (c :: t) = '\\' :: c :: escape t := by
        simp [escape, escapeChar, hc]
      rw [he, parseLit.eq_def]
      simp [hc, ih]
    · have hcb : c ≠ '\\' := fun h => hc (h ▸ (by decide : '\\' ∈ pySpecial))
      have he : escape (c :: t) = c :: escape t := by
        simp [escape, escapeChar, hc]
      rw [he, parseLit.eq_def]
      simp [hcb, hc, ih]
theorem compileName_eq (a : String) :
    compileName a = some (pyStrip a.data) := parseLit_escape _

end StripHtml

/-! ## The claims -/

namespace StripHtml

/-- Claim C1: totality of the transform.  For every configuration (any
`strip_comments`, any list of attribute names, any
`strip_js_on_attributes`) and every input string, `run` returns a string
and never raises: the scan, modelled with an explicit error outcome for
exceeding its step budget, always succeeds and agrees with the total
model of `run`. -/
theorem claim_run_total (cfg : Config) (s : String) :
    runE cfg s = .ok (runS cfg s) := by
  simp only [runE, runS, runL]
  split
  · rw [scanAuxE_ok cfg s.data.length s.data (Nat.le_refl _)]
    rfl
  · rfl

/-- Claim C2: no-op short-circuit.  With `strip_comments = false`,
`strip_attributes = []` and `strip_js_on_attributes = false`, `run`
returns its input unchanged for every input string. -/
theorem claim_noop (s : String) :
    runS (mkPostprocessor false false []) s = s := by
  simp [runS, runL, mkPostprocessor, Config.strip, Config.hasRe]

/-- Claim C3, counterexample.  The claim says the `=value` part of the
bad-attribute pattern is optional, so a configured attribute with no
value would also be removed.  In the code the `=value` group of
`TAG_BAD_ATTR` carries no `?`: on `<p id>x</p>` with
`strip_attributes = ["id"]` the bare `id` is left in place (while the
valued form `id=1` is removed, showing the configuration is active). -/
theorem claim_bad_attr_counterexample :
    runS (mkPostprocessor false false ["id"]) "<p id>x</p>" = "<p id>x</p>" ∧
    runS (mkPostprocessor false false ["id"]) "<p id=1>x</p>" = "<p>x</p>" := by
  constructor <;> decide

/-- Claim C3, amended: when the bad-attribute pattern is active, each
removed span consists of one or more repetitions of whitespace plus a
configured attribute name (a case-sensitive literal, or `on` followed by
one or more word characters when enabled) plus a MANDATORY `=value`
part (double-quoted, single-quoted, or bare token); in particular every
removed span contains a `=`, and a configured attribute appearing with
no `=value` is not removed. -/
theorem claim_bad_attr_amended (cfg : Config) (s c r : List Char)
    (h : badChain cfg s = some (c, r)) :
    Chunks cfg c ∧ '=' ∈ c :=
  ⟨badChain_chunks cfg s c r h, chunks_has_eq (badChain_chunks cfg s c r h)⟩

/-- Witness for the amended claim C3 at a concrete removed span. -/
theorem claim_bad_attr_amended_witness :
    Chunks (mkPostprocessor false false ["id"]) " id=1".data ∧
      '=' ∈ " id=1".data :=
  claim_bad_attr_amended (mkPostprocessor false false ["id"]) " id=1>x".data
    " id=1".data ">x".data (by decide)

/-- Claim C4, counterexample.  `run` is not idempotent: with
`strip_comments = true`, stripping `<!-- x -->` out of
`<!<!-- x -->-- y -->` splices the remaining text into the new comment
`<!-- y -->`, which a second application also strips. -/
theorem claim_idempotence_counterexample :
    runS (mkPostprocessor true false [])
        (runS (mkPostprocessor true false []) "<!<!-- x -->-- y -->") ≠
      runS (mkPostprocessor true false []) "<!<!-- x -->-- y -->" := by
  decide

/-- Claim C4, amended: applying the transform twice yields the same
result as applying it once on inputs containing no `<` character (where
the transform is the identity, for every configuration), and for the
no-op configuration (where it is the identity on every input); in
general the law fails, as a first application can splice text into a new
construct that a second application rewrites. -/
theorem claim_idempotence_amended :
    (∀ (cfg : Config) (s : String), (∀ c ∈ s.data, c ≠ '<') →
      runS cfg (runS cfg s) = runS cfg s) ∧
    (∀ s : String,
      runS (mkPostprocessor false false [])
          (runS (mkPostprocessor false false []) s) =
        runS (mkPostprocessor false false []) s) := by
  constructor
  · intro cfg s hnl
    have hmem : '<' ∉ s.data := fun hm => hnl '<' hm rfl
    have h1 : runS cfg s = s := by
      simp only [runS, runL_no_lt cfg s.data hmem]
    rw [h1]
    exact h1
  · intro s
    simp [runS, runL, mkPostprocessor, Config.strip, Config.hasRe]

/-- Witness for the amended claim C4 at a concrete `<`-free input and an
active configuration. -/
theorem claim_idempotence_amended_witness :
    runS (mkPostprocessor true true ["id"])
        (runS (mkPostprocessor true true ["id"]) "abc") =
      runS (mkPostprocessor true true ["id"]) "abc" :=
  claim_idempotence_amended.1 (mkPostprocessor true true ["id"]) "abc"
    (by decide)

/-- Claim C5: raw-text element bodies are untouched.  The replacement
for a `scripts` match rebuilds the opening prefix, the attribute text
with the bad-attribute substitution applied, and the rest — from `>`
through the matching closing tag — verbatim; concretely,
`<script id="s">var id="keepme";</script>` with
`strip_attributes = ["id"]` is tokenised with `var id="keepme";` inside
the rest group, the opening-tag `id="s"` is stripped, and the body is
emitted unchanged. -/
theorem claim_script_body_untouched :
    (∀ (cfg : Config) (o a r : List Char),
      replM cfg (.scripts o a r) = o ++ attrSub cfg a ++ r) ∧
    tryMatch "<script id=\"s\">var id=\"keepme\";</script>".data =
      some (.scripts "<script".data " id=\"s\"".data
        ">var id=\"keepme\";</script>".data, []) ∧
    runS (mkPostprocessor false false ["id"])
        "<script id=\"s\">var id=\"keepme\";</script>" =
      "<script>var id=\"keepme\";</script>" := by
  refine ⟨fun cfg o a r => rfl, by decide, by decide⟩

/-- Claim C6: closing tags are invariant.  For every configuration, a
span matched as a closing tag is replaced by itself, and the global scan
emits it byte-for-byte identically before continuing on the rest. -/
theorem claim_close_tag_verbatim (cfg : Config) (s t rest : List Char)
    (h : tryMatch s = some (.closeTag t, rest)) :
    replM cfg (.closeTag t) = t ∧ scanL cfg s = t ++ scanL cfg rest := by
  refine ⟨rfl, ?_⟩
  obtain ⟨hsplit, hne⟩ := tryMatch_split s (.closeTag t) rest h
  simp only [MatchData.text] at hsplit hne
  have hlen : s.length = t.length + rest.length := by
    rw [← hsplit]; simp [List.length_append]
  have htpos : 0 < t.length := by
    cases e : t with
    | nil => exact absurd e hne
    | cons a u => simp [e]
  cases hn : s.length with
  | zero => omega
  | succ k =>
    simp only [scanL, hn, scanAux]
    rw [h]
    dsimp only [replM]
    rw [scanAux_fuel cfg k rest.length rest (by omega) (Nat.le_refl _)]

/-- Witness for claim C6 at the concrete closing tag `</p>`. -/
theorem claim_close_tag_verbatim_witness :
    replM (mkPostprocessor true true ["id"]) (.closeTag "</p>".data) =
        "</p>".data ∧
      scanL (mkPostprocessor true true ["id"]) "</p>x".data =
        "</p>".data ++ scanL (mkPostprocessor true true ["id"]) "x".data :=
  claim_close_tag_verbatim (mkPostprocessor true true ["id"]) "</p>x".data
    "</p>".data "x".data (by decide)

/-- Claim C7: the output never grows.  For every configuration and every
input string, the string `run` returns is at most as long as the input. -/
theorem claim_output_no_growth (cfg : Config) (s : String) :
    (runS cfg s).length ≤ s.length := by
  show (runL cfg s.data).length ≤ s.data.length
  simp only [runL]
  split
  · exact scanAux_length cfg s.data.length s.data
  · exact Nat.le_refl _

/-- Claim C8: construction is total.  `__init__` succeeds for every list
of attribute-name strings — each name is escaped before being embedded
in the derived pattern, so reading the fragment back always yields the
name itself as a literal and compilation cannot fail. -/
theorem claim_init_total (sc sj : Bool) (attrs : List String) :
    mkPostprocessorChecked sc sj attrs = some (mkPostprocessor sc sj attrs) := by
  simp only [mkPostprocessorChecked, mkPostprocessor]
  have h : compileNames attrs = some (attrs.map (fun a => pyStrip a.data)) := by
    induction attrs with
    | nil => rfl
    | cons a t ih => simp [compileNames, compileName_eq, ih]
  rw [h]
  rfl

/-- Claim C9: raw-text element recognition is case-sensitive.  Lowercase
`<script ...>` matches the `scripts` alternative (its body up to
`</script>` lands in the opaque rest group), while uppercase
`<SCRIPT ...>` matches the generic opening-tag alternative, so its body
is tokenised and an attribute inside it is also stripped. -/
theorem claim_case_sensitive_raw_text :
    tryMatch "<script id=s>a</script>".data =
      some (.scripts "<script".data " id=s".data ">a</script>".data, []) ∧
    tryMatch "<SCRIPT id=s>a</SCRIPT>".data =
      some (.openTag "<SCRIPT".data " id=s".data ">".data,
        "a</SCRIPT>".data) ∧
    runS (mkPostprocessor false false ["id"]) "<script id=s><b id=k>t</b></script>" =
      "<script><b id=k>t</b></script>" ∧
    runS (mkPostprocessor false false ["id"]) "<SCRIPT id=s><b id=k>t</b></SCRIPT>" =
      "<SCRIPT><b>t</b></SCRIPT>" := by
  refine ⟨by decide, by decide, by decide, by decide⟩

end StripHtml

namespace MarkdownMeta

/-- Claim C10: `_get_version` maps a 5-tuple (major, minor, patch,
phase, num) to a version string that omits the patch component exactly
when patch is 0; phase `final` adds nothing, `dev` appends `.dev` and
the number, and `alpha`/`beta`/`rc` append `a`/`b`/`rc` and the number;
an input whose length is not 5, or whose phase entry is not one of the
five phase strings, raises an assertion error (modelled as `none`). -/
theorem claim_get_version :
    (∀ (a b c num : Nat) (ph : String),
      getVersion [.int a, .int b, .int c, .str ph, .int num] =
        if ph ∈ phases then
          some ((toString a ++ "." ++ toString b ++
                  (if c = 0 then "" else "." ++ toString c)) ++
                (if ph = "dev" then ".dev" ++ toString num
                 else if ph = "alpha" then "a" ++ toString num
                 else if ph = "beta" then "b" ++ toString num
                 else if ph = "rc" then "rc" ++ toString num
                 else ""))
        else none) ∧
    (∀ vi : List PyVal, vi.length ≠ 5 → getVersion vi = none) ∧
    (∀ a b c n num : Nat,
      getVersion [.int a, .int b, .int c, .int n, .int num] = none) := by
  refine ⟨?_, ?_, fun a b c n num => rfl⟩
  · intro a b c num ph
    by_cases hph : ph ∈ phases
    · simp only [getVersion, hph, if_true]
      have hmem : ph = "dev" ∨ ph = "alpha" ∨ ph = "beta" ∨ ph = "rc" ∨
          ph = "final" := by simpa [phases] using hph
      by_cases hc : c = 0
      · subst hc
        rcases hmem with h | h | h | h | h <;> subst h <;>
          simp [isZero, joinDots, pyStr, mapPhase, hph, String.append_assoc]
      · rcases hmem with h | h | h | h | h <;> subst h <;>
          simp [isZero, hc, joinDots, pyStr, mapPhase, hph, String.append_assoc]
    · simp [getVersion, hph]
  · intro vi hlen
    rcases vi with _ | ⟨a, _ | ⟨b, _ | ⟨c, _ | ⟨d, _ | ⟨e, rest⟩⟩⟩⟩⟩ <;>
      first
        | rfl
        | (rcases rest with _ | ⟨f, rest2⟩
           · exact absurd rfl hlen
           · rfl)

/-- Witness for claim C10 at a concrete too-short input. -/
theorem claim_get_version_witness : getVersion [] = none :=
  claim_get_version.2.1 [] (by decide)

end MarkdownMeta
